import Mathlib

/-!
Row-maximum-to-diagonal transform: sequential and block-partitioned executors.

A shallow embedding of `src/main.cpp`.

* A `std::vector<std::vector<double>>` is a list of lists over a type `α`.  The claims are
  about totally ordered values, so `α` carries a `LinearOrder` (the comparison `>` of the
  source) and a `Zero` (the value-initialised cells of the parallel result matrix).
* Indexing a vector outside its bounds and dividing an `int` by zero are undefined in the
  source; the embedding makes both explicit as a `Fault` in the `Except` monad.
* The `int` parameters `numThreads`, `startRow`, `endRow` are integers (`Int`); `/` and `%` of
  the source are the truncating `Int.tdiv` and `Int.tmod`.  Loop counters that start at a
  non-negative literal and only count up are natural numbers.  A square matrix that fits in
  memory has fewer than `2^31` rows, so no `int` of the executors wraps and their integers
  are unbounded here.  The products `maxHardwareThreads * 2 … * 16` of `main` can leave the
  range of a 32-bit `int`; they are reduced by `wrapInt32`.
* The random draws of `generateRandomMatrix` and the timer of `measureExecutionTime` are
  functions passed in from outside; printing is left out.
* Every counted `for` loop is a structurally recursive function whose first numeric argument
  is the number of iterations that remain.
-/

namespace MatrixBench

/-- The two undefined behaviours the source can reach. -/
inductive Fault where
  | divByZero
  | outOfBounds
  deriving DecidableEq, Repr

/-- A matrix is a vector of rows. -/
abbrev Matrix (α : Type) := List (List α)

/-- The access `v[i]` of a `std::vector` at an `int` index. -/
def vecAt {β : Type} (v : List β) (i : Int) : Except Fault β :=
  if i < 0 then .error .outOfBounds
  else
    match v[i.toNat]? with
    | some x => .ok x
    | none => .error .outOfBounds

section Transform

variable {α : Type} [LinearOrder α]

/-- The scan `for (int j = …; j < size; j++) if (row[j] > maxElement) { … }`
(lines 35-40 and 58-63) from the loop state `(j, maxElement, maxIndex)`, with `todo`
iterations left. -/
def scanMax (row : List α) : Nat → Nat → α → Nat → Except Fault (α × Nat)
  | 0, _, maxElement, maxIndex => .ok (maxElement, maxIndex)
  | todo + 1, j, maxElement, maxIndex =>
    match row[j]? with
    | none => .error .outOfBounds
    | some x =>
      if x > maxElement then scanMax row todo (j + 1) x j
      else scanMax row todo (j + 1) maxElement maxIndex

/-- The exchange `std::swap(row[maxIndex], row[i])` (lines 43 and 66). -/
def swapCells (row : List α) (maxIndex : Nat) (i : Int) : Except Fault (List α) := do
  let a ← vecAt row maxIndex
  let b ← vecAt row i
  pure ((row.set maxIndex b).set i.toNat a)

/-- The body shared, word for word, by both executors (lines 33-44 and 56-67), on row `i`
of the result matrix: find the first maximum, exchange it with the diagonal cell. -/
def transformRow (size : Nat) (row : List α) (i : Int) : Except Fault (List α) := do
  let maxElement ← vecAt row 0
  let (_, maxIndex) ← scanMax row (size - 1) 1 maxElement 0
  if (maxIndex : Int) ≠ i then swapCells row maxIndex i
  else pure row

/-- The row loop of `processMatrixSequential` (lines 32-45) from row `i`, with `todo` rows
left. -/
def seqLoop (size : Nat) : Nat → Nat → Matrix α → Except Fault (Matrix α)
  | 0, _, resultMatrix => .ok resultMatrix
  | todo + 1, i, resultMatrix => do
    let row ← vecAt resultMatrix i
    let row' ← transformRow size row i
    seqLoop size todo (i + 1) (resultMatrix.set i row')

/-- The function `processMatrixSequential` (lines 28-48). -/
def processMatrixSequential (originalMatrix : Matrix α) : Except Fault (Matrix α) :=
  let size := originalMatrix.length
  seqLoop size size 0 originalMatrix

/-- The row loop of `processRowsRange` (lines 53-68) from row `i`, with `todo` rows left. -/
def rangeLoop (originalMatrix : Matrix α) :
    Nat → Int → Matrix α → Except Fault (Matrix α)
  | 0, _, resultMatrix => .ok resultMatrix
  | todo + 1, i, resultMatrix => do
    let src ← vecAt originalMatrix i
    let _ ← vecAt resultMatrix i
    let copied := resultMatrix.set i.toNat src
    let row ← vecAt copied i
    let row' ← transformRow originalMatrix.length row i
    rangeLoop originalMatrix todo (i + 1) (copied.set i.toNat row')

/-- The function `processRowsRange` (lines 50-69): the loop runs `endRow - startRow` times, not at all
when `endRow ≤ startRow`. -/
def processRowsRange (originalMatrix resultMatrix : Matrix α) (startRow endRow : Int) :
    Except Fault (Matrix α) :=
  rangeLoop originalMatrix (endRow - startRow).toNat startRow resultMatrix

/-- The partition loop of `processMatrixParallel` (lines 80-89) from thread `i`, with `todo`
threads left: the `(startRow, endRow)` pairs handed to the threads, in spawn order. -/
def rangesLoop (rowsPerThread remainingRows : Int) : Nat → Nat → Int → List (Int × Int)
  | 0, _, _ => []
  | todo + 1, i, startRow =>
    let threadRows := rowsPerThread + (if (i : Int) < remainingRows then 1 else 0)
    let endRow := startRow + threadRows
    (startRow, endRow) :: rangesLoop rowsPerThread remainingRows todo (i + 1) endRow

/-- Lines 76-89 of `processMatrixParallel`: the row ranges of the `numThreads` workers. -/
def threadRanges (size numThreads : Int) : Except Fault (List (Int × Int)) :=
  if numThreads = 0 then .error .divByZero
  else
    let rowsPerThread := Int.tdiv size numThreads
    let remainingRows := Int.tmod size numThreads
    .ok (rangesLoop rowsPerThread remainingRows numThreads.toNat 0 0)

/-- The workers run one after the other, each to completion, in the order of the list. -/
def runWorkers (originalMatrix : Matrix α) :
    List (Int × Int) → Matrix α → Except Fault (Matrix α)
  | [], resultMatrix => .ok resultMatrix
  | (startRow, endRow) :: rest, resultMatrix => do
    let resultMatrix' ← processRowsRange originalMatrix resultMatrix startRow endRow
    runWorkers originalMatrix rest resultMatrix'

/-- The result matrix before any worker has run (line 73): `size × size`, zero-filled. -/
def zeroMatrix (α : Type) [Zero α] (size : Nat) : Matrix α :=
  List.replicate size (List.replicate size 0)

/-- The function `processMatrixParallel` (lines 71-96), the workers taken in spawn order. -/
def processMatrixParallel [Zero α] (originalMatrix : Matrix α) (numThreads : Int) :
    Except Fault (Matrix α) := do
  let size := originalMatrix.length
  let ranges ← threadRanges size numThreads
  runWorkers originalMatrix ranges (zeroMatrix α size)

end Transform

/-- A matrix is square when every row is as long as the matrix has rows. -/
def IsSquare {α : Type} (M : Matrix α) : Prop := ∀ row ∈ M, row.length = M.length

instance {α : Type} (M : Matrix α) : Decidable (IsSquare M) := by
  unfold IsSquare; infer_instance

/-- The predicate `PrefMax row j k x`: among the first `j` cells of `row`, `x` is the largest value and `k`
is the first column that holds it. -/
def PrefMax {α : Type} [LinearOrder α] (row : List α) (j k : Nat) (x : α) : Prop :=
  row[k]? = some x ∧ k < j ∧ (∀ t y, t < j → row[t]? = some y → y ≤ x) ∧
    (∀ t y, t < k → row[t]? = some y → y < x)

/-- The predicate `RowDone M R t`: row `t` of `R` is what the shared loop body makes of row `t` of `M`. -/
def RowDone {α : Type} [LinearOrder α] (M R : Matrix α) (t : Nat) : Prop :=
  ∃ row r, M[t]? = some row ∧ R[t]? = some r ∧ transformRow M.length row (t : Int) = .ok r

/-- The number `startOf q r k`: the first row of worker `k` when every worker gets `q` rows and the
workers before the `r`-th get one more. -/
def startOf (q r : Int) : Nat → Int
  | 0 => 0
  | k + 1 => startOf q r k + (q + (if (k : Int) < r then 1 else 0))

/-! ## The sweep driver -/

/-- The record `ExecutionResult` (lines 8-12); the measured time is a value of a type `τ`
that is left open. -/
structure ExecutionResult (τ : Type) where
  numThreads : Int
  matrixSize : Int
  executionTime : τ

/-- The value a 32-bit `int` holds after an arithmetic result `x`: `x` itself when it fits,
otherwise `x` reduced modulo `2^32` into `[-2^31, 2^31)`. -/
def wrapInt32 (x : Int) : Int := (x + 2147483648) % 4294967296 - 2147483648

/-- The estimate `physicalCores` of `main` (line 115). -/
def physicalCores (maxHardwareThreads : Int) : Int := Int.tdiv maxHardwareThreads 2

/-- The list `threadCounts` of `main` (lines 124-132). -/
def threadCounts (maxHardwareThreads : Int) : List Int :=
  [Int.tdiv (physicalCores maxHardwareThreads) 2,
   physicalCores maxHardwareThreads,
   maxHardwareThreads,
   wrapInt32 (maxHardwareThreads * 2),
   wrapInt32 (maxHardwareThreads * 4),
   wrapInt32 (maxHardwareThreads * 8),
   wrapInt32 (maxHardwareThreads * 16)]

/-- The list `matrixSizes` of `main` (line 122). -/
def matrixSizes : List Int := [100, 500, 1000, 2000]

section Driver

variable {α : Type} [LinearOrder α] [Zero α] {τ : Type}

/-- The function `generateRandomMatrix` (lines 14-26): a `size × size` matrix whose cell
`(i, j)` receives the random draw `dis i j`. -/
def generateRandomMatrix (dis : Nat → Nat → α) (size : Int) : Matrix α :=
  (List.range size.toNat).map fun i => (List.range size.toNat).map fun j => dis i j

/-- The function `measureExecutionTime` (lines 98-111): runs the chosen executor, drops its
result and returns the elapsed time, which the timer `elapsed` supplies. -/
def measureExecutionTime (elapsed : Matrix α → Bool → Int → τ) (matrix : Matrix α)
    (isParallel : Bool) (numThreads : Int) : Except Fault τ := do
  if isParallel then
    let _ ← processMatrixParallel matrix numThreads
  else
    let _ ← processMatrixSequential matrix
  pure (elapsed matrix isParallel numThreads)

/-- The inner loop of `main` (lines 145-149) over the thread counts that remain. -/
def parallelTrials (elapsed : Matrix α → Bool → Int → τ) (matrix : Matrix α) (size : Int) :
    List Int → List (ExecutionResult τ) → Except Fault (List (ExecutionResult τ))
  | [], results => .ok results
  | threads :: rest, results => do
    let parTime ← measureExecutionTime elapsed matrix true threads
    parallelTrials elapsed matrix size rest (results ++ [⟨threads, size, parTime⟩])

/-- The outer loop of `main` (lines 136-152) over the matrix sizes that remain; `draws size`
is the random source of the matrix generated for `size`. -/
def sweepSizes (draws : Int → Nat → Nat → α) (elapsed : Matrix α → Bool → Int → τ)
    (counts : List Int) :
    List Int → List (ExecutionResult τ) → Except Fault (List (ExecutionResult τ))
  | [], results => .ok results
  | size :: rest, results => do
    let matrix := generateRandomMatrix (draws size) size
    let seqTime ← measureExecutionTime elapsed matrix false 1
    let results1 := results ++ [⟨1, size, seqTime⟩]
    let results2 ← parallelTrials elapsed matrix size counts results1
    sweepSizes draws elapsed counts rest results2

/-- The function `main` (lines 113-155) as the sequence `results` it has built when it
returns; `maxHardwareThreads` is what `hardware_concurrency()` reported. -/
def main (draws : Int → Nat → Nat → α) (elapsed : Matrix α → Bool → Int → τ)
    (maxHardwareThreads : Int) : Except Fault (List (ExecutionResult τ)) :=
  sweepSizes draws elapsed (threadCounts maxHardwareThreads) matrixSizes []

/-- The records `main` is to append for one matrix size: the sequential one, then one for
each thread count. -/
def recordsFor (draws : Int → Nat → Nat → α) (elapsed : Matrix α → Bool → Int → τ)
    (counts : List Int) (size : Int) : List (ExecutionResult τ) :=
  ⟨1, size, elapsed (generateRandomMatrix (draws size) size) false 1⟩ ::
    counts.map fun threads =>
      ⟨threads, size, elapsed (generateRandomMatrix (draws size) size) true threads⟩

end Driver

/-! ## Reading vectors -/

section Lemmas

variable {α : Type} [LinearOrder α]

theorem vecAt_nat {β : Type} (v : List β) (k : Nat) (x : β) (h : v[k]? = some x) :
    vecAt v (k : Int) = .ok x := by
  unfold vecAt
  have : ¬ ((k : Int) < 0) := by omega
  simp [this, h]

theorem vecAt_int {β : Type} (v : List β) (i : Int) (x : β) (h0 : 0 ≤ i)
    (h : v[i.toNat]? = some x) : vecAt v i = .ok x := by
  unfold vecAt
  have : ¬ (i < 0) := by omega
  simp [this, h]

theorem scanMax_spec (row : List α) :
    ∀ (todo j : Nat) (m : α) (k : Nat), j + todo ≤ row.length → PrefMax row j k m →
      ∃ m' k', scanMax row todo j m k = .ok (m', k') ∧ PrefMax row (j + todo) k' m' := by
  intro todo
  induction todo with
  | zero =>
    intro j m k _ h
    exact ⟨m, k, rfl, by simpa using h⟩
  | succ todo ih =>
    intro j m k hlen h
    obtain ⟨hk, hkj, hle, hlt⟩ := h
    have hj : j < row.length := by omega
    have hx : row[j]? = some row[j] := List.getElem?_eq_getElem hj
    unfold scanMax
    rw [hx]
    simp only
    by_cases hgt : row[j] > m
    · rw [if_pos hgt]
      have hp : PrefMax row (j + 1) j row[j] := by
        refine ⟨hx, by omega, ?_, ?_⟩
        · intro t y ht hy
          rcases Nat.lt_succ_iff_lt_or_eq.mp ht with h1 | h1
          · exact le_of_lt (lt_of_le_of_lt (hle t y h1 hy) hgt)
          · subst h1
            rw [hx] at hy
            exact le_of_eq (Option.some.inj hy).symm
        · intro t y ht hy
          exact lt_of_le_of_lt (hle t y ht hy) hgt
      obtain ⟨m', k', h1, h2⟩ := ih (j + 1) row[j] j (by omega) hp
      exact ⟨m', k', h1, by rwa [show j + (todo + 1) = j + 1 + todo by omega]⟩
    · rw [if_neg hgt]
      have hp : PrefMax row (j + 1) k m := by
        refine ⟨hk, by omega, ?_, hlt⟩
        intro t y ht hy
        rcases Nat.lt_succ_iff_lt_or_eq.mp ht with h1 | h1
        · exact hle t y h1 hy
        · subst h1
          rw [hx] at hy
          rw [← Option.some.inj hy]
          exact not_lt.mp hgt
      obtain ⟨m', k', h1, h2⟩ := ih (j + 1) m k (by omega) hp
      exact ⟨m', k', h1, by rwa [show j + (todo + 1) = j + 1 + todo by omega]⟩

theorem set_same {β : Type} (v : List β) (k : Nat) (x : β) (h : v[k]? = some x) :
    v.set k x = v := by
  apply List.ext_getElem?
  intro j
  rw [List.getElem?_set]
  by_cases hkj : k = j
  · subst hkj
    have hk : k < v.length := by
      by_contra hc
      rw [List.getElem?_eq_none (by omega)] at h
      cases h
    simp [hk, h]
  · simp [hkj]

theorem transformRow_spec (size : Nat) (row : List α) (i : Nat) (hlen : row.length = size)
    (hi : i < size) :
    ∃ m x d, PrefMax row size m x ∧ row[i]? = some d ∧
      transformRow size row (i : Int) = .ok ((row.set m d).set i x) := by
  have h0 : 0 < row.length := by omega
  have hx0 : row[0]? = some row[0] := List.getElem?_eq_getElem h0
  have hp0 : PrefMax row 1 0 row[0] := by
    refine ⟨hx0, by omega, ?_, ?_⟩
    · intro t y ht hy
      have : t = 0 := by omega
      subst this
      rw [hx0] at hy
      exact le_of_eq (Option.some.inj hy).symm
    · intro t y ht
      omega
  obtain ⟨x, m, hscan, hp⟩ := scanMax_spec row (size - 1) 1 row[0] 0 (by omega) hp0
  rw [show 1 + (size - 1) = size by omega] at hp
  have hd : row[i]? = some row[i] := List.getElem?_eq_getElem (by omega)
  refine ⟨m, x, row[i], hp, hd, ?_⟩
  unfold transformRow
  rw [vecAt_int row 0 row[0] (le_refl 0) (by simp)]
  simp only [bind, Except.bind, hscan]
  by_cases hmi : (m : Int) = (i : Int)
  · have hmi' : m = i := by exact_mod_cast hmi
    subst hmi'
    have hxd : x = row[m] := by
      have := hp.1
      rw [hd] at this
      exact (Option.some.inj this).symm
    subst hxd
    simp [pure, Except.pure, set_same row m row[m] hd]
  · rw [if_pos hmi]
    unfold swapCells
    rw [vecAt_nat row m x hp.1, vecAt_nat row i row[i] hd]
    simp [bind, Except.bind, pure, Except.pure]

theorem transformRow_ok (M : Matrix α) (hsq : IsSquare M) (t : Nat) (row : List α)
    (hrow : M[t]? = some row) :
    ∃ r, transformRow M.length row (t : Int) = .ok r := by
  have ht : t < M.length := by
    by_contra hc
    rw [List.getElem?_eq_none (by omega)] at hrow
    cases hrow
  have hlen : row.length = M.length := hsq row (List.getElem?_mem hrow)
  obtain ⟨m, x, d, -, -, h⟩ := transformRow_spec M.length row t hlen ht
  exact ⟨_, h⟩

theorem RowDone_congr (M R R' : Matrix α) (t : Nat) (h : R'[t]? = R[t]?)
    (hd : RowDone M R t) : RowDone M R' t := by
  obtain ⟨row, r, h1, h2, h3⟩ := hd
  exact ⟨row, r, h1, by rw [h, h2], h3⟩

/-! ## The row loops -/

theorem seqLoop_spec (M : Matrix α) (hsq : IsSquare M) :
    ∀ (todo i : Nat) (res : Matrix α), i + todo = M.length → res.length = M.length →
      (∀ t, i ≤ t → res[t]? = M[t]?) → (∀ t, t < i → RowDone M res t) →
      ∃ R, seqLoop M.length todo i res = .ok R ∧ R.length = M.length ∧
        ∀ t, t < M.length → RowDone M R t := by
  intro todo
  induction todo with
  | zero =>
    intro i res hi hlen _ hdone
    exact ⟨res, rfl, hlen, fun t ht => hdone t (by omega)⟩
  | succ todo ih =>
    intro i res hi hlen hrest hdone
    have hiM : i < M.length := by omega
    have hrow : M[i]? = some M[i] := List.getElem?_eq_getElem hiM
    obtain ⟨r, hr⟩ := transformRow_ok M hsq i M[i] hrow
    have hres : res[i]? = some M[i] := by rw [hrest i (le_refl i), hrow]
    obtain ⟨R, hR, hRlen, hRdone⟩ := ih (i + 1) (res.set i r) (by omega)
      (by simpa using hlen)
      (fun t ht => by rw [List.getElem?_set_ne (by omega)]; exact hrest t (by omega))
      (fun t ht => by
        rcases Nat.lt_succ_iff_lt_or_eq.mp ht with h1 | h1
        · exact RowDone_congr M res _ t (List.getElem?_set_ne (by omega)) (hdone t h1)
        · subst h1
          exact ⟨M[t], r, hrow, List.getElem?_set_self (by omega), hr⟩)
    refine ⟨R, ?_, hRlen, hRdone⟩
    unfold seqLoop
    rw [vecAt_nat res i M[i] hres]
    simp only [bind, Except.bind, hr]
    exact hR

theorem rangeLoop_spec (M : Matrix α) (hsq : IsSquare M) :
    ∀ (todo i : Nat) (res : Matrix α), i + todo ≤ M.length → res.length = M.length →
      ∃ R, rangeLoop M todo (i : Int) res = .ok R ∧ R.length = M.length ∧
        (∀ t, i ≤ t → t < i + todo → RowDone M R t) ∧
        (∀ t, t < i ∨ i + todo ≤ t → R[t]? = res[t]?) := by
  intro todo
  induction todo with
  | zero =>
    intro i res _ hlen
    exact ⟨res, rfl, hlen, fun t h1 h2 => by omega, fun t _ => rfl⟩
  | succ todo ih =>
    intro i res hi hlen
    have hiM : i < M.length := by omega
    have hrow : M[i]? = some M[i] := List.getElem?_eq_getElem hiM
    have hres : res[i]? = some res[i] := List.getElem?_eq_getElem (by omega)
    obtain ⟨r, hr⟩ := transformRow_ok M hsq i M[i] hrow
    have hcopied : (res.set i M[i])[i]? = some M[i] := List.getElem?_set_self (by omega)
    obtain ⟨R, hR, hRlen, hRdone, hRrest⟩ := ih (i + 1) ((res.set i M[i]).set i r) (by omega)
      (by simpa using hlen)
    refine ⟨R, ?_, hRlen, ?_, ?_⟩
    · unfold rangeLoop
      rw [vecAt_nat M i M[i] hrow, vecAt_nat res i res[i] hres]
      simp only [bind, Except.bind, Int.toNat_ofNat]
      rw [vecAt_nat _ i M[i] hcopied]
      simp only [hr]
      exact hR
    · intro t h1 h2
      rcases Nat.eq_or_lt_of_le h1 with h3 | h3
      · subst h3
        have := hRrest i (Or.inl (by omega))
        refine ⟨M[i], r, hrow, ?_, hr⟩
        rw [this]
        exact List.getElem?_set_self (by simpa using (by omega : i < res.length))
      · exact hRdone t (by omega) (by omega)
    · intro t ht
      rw [hRrest t (by omega), List.getElem?_set_ne (by omega), List.getElem?_set_ne (by omega)]

theorem processRowsRange_spec (M : Matrix α) (hsq : IsSquare M) (res : Matrix α)
    (hlen : res.length = M.length) (startRow endRow : Int) (h0 : 0 ≤ startRow)
    (hse : startRow ≤ endRow) (hen : endRow ≤ M.length) :
    ∃ R, processRowsRange M res startRow endRow = .ok R ∧ R.length = M.length ∧
      (∀ t : Nat, startRow ≤ t → (t : Int) < endRow → RowDone M R t) ∧
      (∀ t : Nat, (t : Int) < startRow ∨ endRow ≤ t → R[t]? = res[t]?) := by
  obtain ⟨R, hR, hRlen, hRdone, hRrest⟩ :=
    rangeLoop_spec M hsq (endRow - startRow).toNat startRow.toNat res (by omega) hlen
  refine ⟨R, ?_, hRlen, ?_, ?_⟩
  · unfold processRowsRange
    rw [Int.toNat_of_nonneg h0] at hR
    exact hR
  · intro t h1 h2
    exact hRdone t (by omega) (by omega)
  · intro t ht
    exact hRrest t (by omega)

theorem runWorkers_spec (M : Matrix α) (hsq : IsSquare M) :
    ∀ (rs : List (Int × Int)) (res : Matrix α),
      (∀ p ∈ rs, 0 ≤ p.1 ∧ p.1 ≤ p.2 ∧ p.2 ≤ M.length) → res.length = M.length →
      ∃ R, runWorkers M rs res = .ok R ∧ R.length = M.length ∧
        (∀ t : Nat, (∃ p ∈ rs, p.1 ≤ t ∧ (t : Int) < p.2) → RowDone M R t) ∧
        (∀ t : Nat, (¬ ∃ p ∈ rs, p.1 ≤ t ∧ (t : Int) < p.2) → R[t]? = res[t]?) := by
  intro rs
  induction rs with
  | nil =>
    intro res _ hlen
    exact ⟨res, rfl, hlen, fun t ⟨p, hp, _⟩ => (by cases hp), fun t _ => rfl⟩
  | cons p rest ih =>
    intro res hval hlen
    obtain ⟨s, e⟩ := p
    obtain ⟨h0, hse, hen⟩ := hval (s, e) (List.mem_cons_self _ _)
    obtain ⟨R1, hR1, hR1len, hR1done, hR1rest⟩ :=
      processRowsRange_spec M hsq res hlen s e h0 hse hen
    obtain ⟨R, hR, hRlen, hRdone, hRrest⟩ :=
      ih R1 (fun p hp => hval p (List.mem_cons_of_mem _ hp)) hR1len
    refine ⟨R, ?_, hRlen, ?_, ?_⟩
    · unfold runWorkers
      simp only [bind, Except.bind, hR1]
      exact hR
    · intro t ht
      by_cases hc : ∃ p ∈ rest, p.1 ≤ t ∧ (t : Int) < p.2
      · exact hRdone t hc
      · obtain ⟨p, hp, hp1, hp2⟩ := ht
        rcases List.mem_cons.mp hp with h1 | h1
        · subst h1
          exact RowDone_congr M R1 R t (hRrest t hc) (hR1done t hp1 hp2)
        · exact absurd ⟨p, h1, hp1, hp2⟩ hc
    · intro t ht
      have hc : ¬ ∃ p ∈ rest, p.1 ≤ t ∧ (t : Int) < p.2 := fun ⟨p, hp, h⟩ =>
        ht ⟨p, List.mem_cons_of_mem _ hp, h⟩
      rw [hRrest t hc]
      apply hR1rest t
      by_contra hn
      exact ht ⟨(s, e), List.mem_cons_self _ _, by simp only; omega, by simp only; omega⟩

theorem RowDone_unique (M R R' : Matrix α) (hR : R.length = M.length)
    (hR' : R'.length = M.length) (h : ∀ t, t < M.length → RowDone M R t)
    (h' : ∀ t, t < M.length → RowDone M R' t) : R = R' := by
  apply List.ext_getElem?
  intro t
  by_cases ht : t < M.length
  · obtain ⟨row, r, h1, h2, h3⟩ := h t ht
    obtain ⟨row', r', h1', h2', h3'⟩ := h' t ht
    rw [h1] at h1'
    cases h1'
    rw [h3] at h3'
    cases h3'
    rw [h2, h2']
  · rw [List.getElem?_eq_none (by omega), List.getElem?_eq_none (by omega)]

/-! ## The partition of the rows -/

theorem rangesLoop_length (q r : Int) :
    ∀ (todo i : Nat) (s : Int), (rangesLoop q r todo i s).length = todo := by
  intro todo
  induction todo with
  | zero => intro i s; rfl
  | succ todo ih => intro i s; simp [rangesLoop, ih]

theorem rangesLoop_getElem? (q r : Int) :
    ∀ (todo i k : Nat), k < todo →
      (rangesLoop q r todo i (startOf q r i))[k]? =
        some (startOf q r (i + k), startOf q r (i + k + 1)) := by
  intro todo
  induction todo with
  | zero => intro i k hk; omega
  | succ todo ih =>
    intro i k hk
    unfold rangesLoop
    cases k with
    | zero => simp [startOf]
    | succ k =>
      simp only [List.getElem?_cons_succ]
      have := ih (i + 1) k (by omega)
      rw [show i + (k + 1) = i + 1 + k by omega]
      rw [← this]
      rfl

theorem startOf_closed (q r : Int) (hr : 0 ≤ r) :
    ∀ k : Nat, startOf q r k = k * q + min (k : Int) r := by
  intro k
  induction k with
  | zero => simp [startOf, hr]
  | succ k ih =>
    unfold startOf
    rw [ih]
    push_cast
    split_ifs with h
    · rw [min_eq_left (le_of_lt h), min_eq_left (by omega)]; ring
    · rw [min_eq_right (by omega), min_eq_right (by omega)]; ring

theorem startOf_step_le (q r : Int) (hq : 0 ≤ q) (k : Nat) :
    startOf q r k ≤ startOf q r (k + 1) := by
  show startOf q r k ≤ startOf q r k + (q + (if (k : Int) < r then 1 else 0))
  split_ifs <;> omega

theorem startOf_mono (q r : Int) (hq : 0 ≤ q) (j k : Nat) (hjk : j ≤ k) :
    startOf q r j ≤ startOf q r k := by
  induction k with
  | zero =>
    have : j = 0 := by omega
    subst this
    exact le_refl _
  | succ k ih =>
    rcases Nat.eq_or_lt_of_le hjk with h | h
    · subst h
      exact le_refl _
    · exact le_trans (ih (by omega)) (startOf_step_le q r hq k)

theorem startOf_cover (q r : Int) (t : Int) (h0 : 0 ≤ t) :
    ∀ N : Nat, t < startOf q r N → ∃ k, k < N ∧ startOf q r k ≤ t ∧ t < startOf q r (k + 1) := by
  intro N
  induction N with
  | zero =>
    intro h
    simp only [startOf] at h
    omega
  | succ N ih =>
    intro h
    by_cases hc : t < startOf q r N
    · obtain ⟨k, hk, h1, h2⟩ := ih hc
      exact ⟨k, by omega, h1, h2⟩
    · exact ⟨N, by omega, by omega, h⟩

theorem threadRanges_ok (size numThreads : Int) (hs : 0 ≤ size) (hN : 1 ≤ numThreads) :
    threadRanges size numThreads =
      .ok (rangesLoop (size / numThreads) (size % numThreads) numThreads.toNat 0 0) := by
  unfold threadRanges
  have : numThreads ≠ 0 := by omega
  rw [if_neg this, Int.tdiv_eq_ediv hs (by omega), Int.tmod_eq_emod hs (by omega)]

theorem startOf_total (size numThreads : Int) (hN : 1 ≤ numThreads) :
    startOf (size / numThreads) (size % numThreads) numThreads.toNat = size := by
  have h1 := Int.emod_lt_of_pos size (show 0 < numThreads by omega)
  rw [startOf_closed _ _ (Int.emod_nonneg size (by omega)), Int.toNat_of_nonneg (by omega)]
  have h2 := Int.emod_add_ediv size numThreads
  rw [min_eq_right (le_of_lt h1)]
  linarith

theorem ranges_getElem? (q r : Int) (n k : Nat) (hk : k < n) :
    (rangesLoop q r n 0 0)[k]? = some (startOf q r k, startOf q r (k + 1)) := by
  have h := rangesLoop_getElem? q r n 0 k hk
  rw [Nat.zero_add] at h
  exact h

theorem ranges_mem (q r : Int) (n : Nat) (p : Int × Int) (hp : p ∈ rangesLoop q r n 0 0) :
    ∃ k, k < n ∧ p = (startOf q r k, startOf q r (k + 1)) := by
  obtain ⟨k, hk⟩ := List.getElem?_of_mem hp
  have hkn : k < n := by
    by_contra hc
    rw [List.getElem?_eq_none (by rw [rangesLoop_length]; omega)] at hk
    cases hk
  rw [ranges_getElem? q r n k hkn] at hk
  exact ⟨k, hkn, (Option.some.inj hk).symm⟩

theorem ranges_valid (size numThreads : Int) (hs : 0 ≤ size) (hN : 1 ≤ numThreads)
    (p : Int × Int)
    (hp : p ∈ rangesLoop (size / numThreads) (size % numThreads) numThreads.toNat 0 0) :
    0 ≤ p.1 ∧ p.1 ≤ p.2 ∧ p.2 ≤ size := by
  have hq : 0 ≤ size / numThreads := Int.ediv_nonneg hs (by omega)
  obtain ⟨k, hk, rfl⟩ := ranges_mem _ _ _ p hp
  refine ⟨?_, startOf_step_le _ _ hq k, ?_⟩
  · exact startOf_mono _ _ hq 0 k (by omega)
  · have := startOf_mono (size / numThreads) (size % numThreads) hq (k + 1) numThreads.toNat
      (by omega)
    rwa [startOf_total size numThreads hN] at this

theorem ranges_cover (size numThreads : Int) (hN : 1 ≤ numThreads) (t : Int) (h0 : 0 ≤ t)
    (ht : t < size) :
    ∃ p ∈ rangesLoop (size / numThreads) (size % numThreads) numThreads.toNat 0 0,
      p.1 ≤ t ∧ t < p.2 := by
  rw [← startOf_total size numThreads hN] at ht
  obtain ⟨k, hk, h1, h2⟩ := startOf_cover _ _ t h0 _ ht
  exact ⟨_, List.getElem?_mem (ranges_getElem? _ _ _ k hk), h1, h2⟩

/-! ## The two executors agree -/

theorem sequential_done (M : Matrix α) (hsq : IsSquare M) :
    ∃ R, processMatrixSequential M = .ok R ∧ R.length = M.length ∧
      ∀ t, t < M.length → RowDone M R t :=
  seqLoop_spec M hsq M.length 0 M (by omega) rfl (fun _ _ => rfl) (fun t ht => by omega)

theorem workers_done (M : Matrix α) (hsq : IsSquare M) (rs : List (Int × Int))
    (res : Matrix α) (hlen : res.length = M.length)
    (hval : ∀ p ∈ rs, 0 ≤ p.1 ∧ p.1 ≤ p.2 ∧ p.2 ≤ M.length)
    (hcov : ∀ t : Nat, t < M.length → ∃ p ∈ rs, p.1 ≤ t ∧ (t : Int) < p.2) :
    runWorkers M rs res = processMatrixSequential M := by
  obtain ⟨R, hR, hRlen, hRdone⟩ := sequential_done M hsq
  obtain ⟨R', hR', hRlen', hRdone', -⟩ := runWorkers_spec M hsq rs res hval hlen
  rw [hR, hR', RowDone_unique M R' R hRlen' hRlen (fun t ht => hRdone' t (hcov t ht)) hRdone]

theorem zeroMatrix_length (β : Type) [Zero β] (n : Nat) : (zeroMatrix β n).length = n := by
  simp [zeroMatrix]

theorem workers_permuted [Zero α] (M : Matrix α) (hsq : IsSquare M) (numThreads : Int)
    (hN : 1 ≤ numThreads) (rs : List (Int × Int))
    (hperm : rs.Perm (rangesLoop ((M.length : Int) / numThreads)
      ((M.length : Int) % numThreads) numThreads.toNat 0 0)) :
    runWorkers M rs (zeroMatrix α M.length) = processMatrixSequential M := by
  apply workers_done M hsq rs _ (zeroMatrix_length α _)
  · intro p hp
    exact ranges_valid _ _ (by omega) hN p (hperm.mem_iff.mp hp)
  · intro t ht
    obtain ⟨p, hp, h⟩ := ranges_cover (M.length : Int) numThreads hN t (by omega) (by omega)
    exact ⟨p, hperm.mem_iff.mpr hp, h⟩

theorem parallel_unfold [Zero α] (M : Matrix α) (numThreads : Int) (hN : 1 ≤ numThreads) :
    processMatrixParallel M numThreads =
      runWorkers M (rangesLoop ((M.length : Int) / numThreads)
        ((M.length : Int) % numThreads) numThreads.toNat 0 0) (zeroMatrix α M.length) := by
  unfold processMatrixParallel
  simp only [threadRanges_ok (M.length : Int) numThreads (by omega) hN, bind, Except.bind]

theorem parallel_sequential [Zero α] (M : Matrix α) (hsq : IsSquare M) (numThreads : Int)
    (hN : 1 ≤ numThreads) :
    processMatrixParallel M numThreads = processMatrixSequential M := by
  rw [parallel_unfold M numThreads hN]
  exact workers_permuted M hsq numThreads hN _ (List.Perm.refl _)

/-- What the shared loop body leaves in a finished row: the first maximum `x`, found at
column `m`, sits on the diagonal and the former diagonal value `d` sits at column `m`. -/
theorem RowDone_shape (M R : Matrix α) (hsq : IsSquare M) (t : Nat) (h : RowDone M R t) :
    ∃ row m x d, M[t]? = some row ∧ row.length = M.length ∧ t < M.length ∧
      PrefMax row M.length m x ∧ row[t]? = some d ∧ R[t]? = some ((row.set m d).set t x) := by
  obtain ⟨row, r, h1, h2, h3⟩ := h
  have ht : t < M.length := by
    by_contra hc
    rw [List.getElem?_eq_none (by omega)] at h1
    cases h1
  have hlen : row.length = M.length := hsq row (List.getElem?_mem h1)
  obtain ⟨m, x, d, hp, hd, hr⟩ := transformRow_spec M.length row t hlen ht
  rw [h3] at hr
  cases hr
  exact ⟨row, m, x, d, h1, hlen, ht, hp, hd, h2⟩

theorem getElem?_lt {β : Type} (v : List β) (k : Nat) (x : β) (h : v[k]? = some x) :
    k < v.length := by
  by_contra hc
  rw [List.getElem?_eq_none (by omega)] at h
  cases h

theorem ranges_lookup (q r : Int) (n k : Nat) (p : Int × Int)
    (h : (rangesLoop q r n 0 0)[k]? = some p) :
    k < n ∧ p = (startOf q r k, startOf q r (k + 1)) := by
  have hk : k < n := by
    have := getElem?_lt _ k p h
    rwa [rangesLoop_length] at this
  rw [ranges_getElem? q r n k hk] at h
  exact ⟨hk, (Option.some.inj h).symm⟩

theorem startOf_block (q r : Int) (k : Nat) :
    startOf q r (k + 1) - startOf q r k = q + (if (k : Int) < r then 1 else 0) := by
  show startOf q r k + (q + (if (k : Int) < r then 1 else 0)) - startOf q r k = _
  omega

theorem ranges_apart (q r : Int) (hq : 0 ≤ q) (j k : Nat) (hjk : j < k) (t : Int)
    (h1 : t < startOf q r (j + 1)) (h2 : startOf q r k ≤ t) : False := by
  have := startOf_mono q r hq (j + 1) k (by omega)
  omega

theorem ranges_oversubscribed (n : Nat) (numThreads : Int) (hN : (n : Int) < numThreads)
    (k : Nat) (hk : (k : Int) < numThreads) :
    (rangesLoop ((n : Int) / numThreads) ((n : Int) % numThreads) numThreads.toNat 0 0)[k]? =
      some (if k < n then ((k : Int), (k : Int) + 1) else ((n : Int), (n : Int))) := by
  rw [ranges_getElem? _ _ _ k (by omega), Int.ediv_eq_zero_of_lt (by omega) hN,
    Int.emod_eq_of_lt (by omega) hN, startOf_closed _ _ (by omega), startOf_closed _ _ (by omega)]
  push_cast
  split_ifs with h
  · rw [min_eq_left (by omega), min_eq_left (by omega)]; simp
  · rw [min_eq_right (by omega), min_eq_right (by omega)]; simp

/-- A row whose diagonal cell already holds a value that no cell exceeds is left as it is. -/
theorem transformRow_fixed (size : Nat) (row : List α) (t : Nat) (x : α)
    (hlen : row.length = size) (ht : t < size) (hx : row[t]? = some x)
    (hmax : ∀ (j : Nat) (y : α), row[j]? = some y → y ≤ x) :
    transformRow size row (t : Int) = .ok row := by
  obtain ⟨m, x', d, hp, hd, hr⟩ := transformRow_spec size row t hlen ht
  rw [hx] at hd
  cases hd
  have hxx : x' = x := le_antisymm (hmax m x' hp.1) (hp.2.2.1 t x ht hx)
  subst hxx
  rw [hr, set_same row m x' hp.1, set_same row t x' hx]

/-- Every value of a finished row is a value of the original row. -/
theorem swapped_entries {β : Type} (row : List β) (m t : Nat) (x d : β)
    (hm : row[m]? = some x) (ht : row[t]? = some d) (j : Nat) (y : β)
    (hj : ((row.set m d).set t x)[j]? = some y) : ∃ j' : Nat, row[j']? = some y := by
  rw [List.getElem?_set] at hj
  by_cases h1 : t = j
  · rw [if_pos h1] at hj
    split_ifs at hj
    cases hj
    exact ⟨m, hm⟩
  · rw [if_neg h1, List.getElem?_set] at hj
    by_cases h2 : m = j
    · rw [if_pos h2] at hj
      split_ifs at hj
      cases hj
      exact ⟨t, ht⟩
    · rw [if_neg h2] at hj
      exact ⟨j, hj⟩

/-! ## The claims -/

/-- C1: on a square matrix `processMatrixSequential` returns a matrix whose diagonal cell of
every row `i` holds the maximum of the original row `M[i]`: a value that occurs in `M[i]`
and that no entry of `M[i]` exceeds. -/
theorem sequential_diagonal_holds_row_max (M : Matrix α) (hsq : IsSquare M) :
    ∃ R, processMatrixSequential M = .ok R ∧ R.length = M.length ∧
      ∀ i, i < M.length → ∃ row r x, M[i]? = some row ∧ R[i]? = some r ∧
        r[i]? = some x ∧ x ∈ row ∧ ∀ y ∈ row, y ≤ x := by
  obtain ⟨R, hR, hRlen, hRdone⟩ := sequential_done M hsq
  refine ⟨R, hR, hRlen, ?_⟩
  intro i hi
  obtain ⟨row, m, x, d, h1, hlen, -, hp, -, hr⟩ := RowDone_shape M R hsq i (hRdone i hi)
  refine ⟨row, _, x, h1, hr, ?_, List.getElem?_mem hp.1, ?_⟩
  · exact List.getElem?_set_self (by simp; omega)
  · intro y hy
    obtain ⟨t, ht⟩ := List.getElem?_of_mem hy
    exact hp.2.2.1 t y (by have := getElem?_lt row t y ht; omega) ht

theorem sequential_diagonal_holds_row_max_witness :
    IsSquare ([[1, 5], [7, 3]] : Matrix ℤ) ∧
      ∃ R, processMatrixSequential ([[1, 5], [7, 3]] : Matrix ℤ) = .ok R ∧
        R.length = ([[1, 5], [7, 3]] : Matrix ℤ).length ∧
        ∀ i, i < ([[1, 5], [7, 3]] : Matrix ℤ).length → ∃ row r x,
          ([[1, 5], [7, 3]] : Matrix ℤ)[i]? = some row ∧ R[i]? = some r ∧
          r[i]? = some x ∧ x ∈ row ∧ ∀ y ∈ row, y ≤ x :=
  ⟨by decide, sequential_diagonal_holds_row_max _ (by decide)⟩

/-- C2: on a square matrix and with at least one worker, both executors return the same
matrix, and so does every run of the workers of `processMatrixParallel` on the zero-filled
result matrix in which the computed row ranges are taken in another order. -/
theorem parallel_matches_sequential [Zero α] (M : Matrix α) (hsq : IsSquare M)
    (numThreads : Int) (hN : 1 ≤ numThreads) :
    ∃ R ranges, processMatrixSequential M = .ok R ∧
      threadRanges (M.length : Int) numThreads = .ok ranges ∧
      processMatrixParallel M numThreads = .ok R ∧
      ∀ order : List (Int × Int), order.Perm ranges →
        runWorkers M order (zeroMatrix α M.length) = .ok R := by
  obtain ⟨R, hR, -, -⟩ := sequential_done M hsq
  refine ⟨R, _, hR, threadRanges_ok (M.length : Int) numThreads (by omega) hN, ?_, ?_⟩
  · rw [parallel_sequential M hsq numThreads hN, hR]
  · intro order hperm
    rw [workers_permuted M hsq numThreads hN order hperm, hR]

theorem parallel_matches_sequential_witness :
    IsSquare ([[1, 5, 2], [7, 3, 7], [4, 4, 9]] : Matrix ℤ) ∧ (1 : Int) ≤ 2 ∧
      ∃ R ranges, processMatrixSequential ([[1, 5, 2], [7, 3, 7], [4, 4, 9]] : Matrix ℤ) = .ok R ∧
        threadRanges (([[1, 5, 2], [7, 3, 7], [4, 4, 9]] : Matrix ℤ).length : Int) 2
          = .ok ranges ∧
        processMatrixParallel ([[1, 5, 2], [7, 3, 7], [4, 4, 9]] : Matrix ℤ) 2 = .ok R ∧
        ∀ order : List (Int × Int), order.Perm ranges →
          runWorkers ([[1, 5, 2], [7, 3, 7], [4, 4, 9]] : Matrix ℤ) order
            (zeroMatrix ℤ ([[1, 5, 2], [7, 3, 7], [4, 4, 9]] : Matrix ℤ).length) = .ok R :=
  ⟨by decide, by decide, parallel_matches_sequential _ (by decide) 2 (by decide)⟩

/-- C3: for `size ≥ 0` and `numThreads ≥ 1` the row ranges computed by
`processMatrixParallel` are `numThreads` half-open intervals that are contiguous (the first
starts at `0`, each next one starts where the previous one ends, the last ends at `size`),
pairwise disjoint, and cover exactly the rows `0 … size-1`, so that every row belongs to
exactly one worker; the lengths of any two ranges differ by at most one. -/
theorem thread_ranges_partition (size numThreads : Int) (hs : 0 ≤ size)
    (hN : 1 ≤ numThreads) :
    ∃ rs, threadRanges size numThreads = .ok rs ∧ rs.length = numThreads.toNat ∧
      (∃ p : Int × Int, rs[0]? = some p ∧ p.1 = 0) ∧
      (∀ (k : Nat) (a b : Int × Int), rs[k]? = some a → rs[k + 1]? = some b → b.1 = a.2) ∧
      (∃ p, rs[numThreads.toNat - 1]? = some p ∧ p.2 = size) ∧
      (∀ p ∈ rs, p.1 ≤ p.2) ∧
      (∀ (j k : Nat) (a b : Int × Int), j ≠ k → rs[j]? = some a → rs[k]? = some b →
        ∀ t : Int, ¬ (a.1 ≤ t ∧ t < a.2 ∧ b.1 ≤ t ∧ t < b.2)) ∧
      (∀ t : Int, (0 ≤ t ∧ t < size) ↔ ∃ p ∈ rs, p.1 ≤ t ∧ t < p.2) ∧
      (∀ t : Int, 0 ≤ t → t < size → ∃! k : Nat, ∃ p : Int × Int, rs[k]? = some p ∧ p.1 ≤ t ∧ t < p.2) ∧
      (∀ a ∈ rs, ∀ b ∈ rs, (a.2 - a.1) - (b.2 - b.1) ≤ 1) := by
  have hq : 0 ≤ size / numThreads := Int.ediv_nonneg hs (by omega)
  have hn : 0 < numThreads.toNat := by omega
  have hdisj : ∀ (j k : Nat) (a b : Int × Int), j ≠ k →
      (rangesLoop (size / numThreads) (size % numThreads) numThreads.toNat 0 0)[j]? = some a →
      (rangesLoop (size / numThreads) (size % numThreads) numThreads.toNat 0 0)[k]? = some b →
      ∀ t : Int, ¬ (a.1 ≤ t ∧ t < a.2 ∧ b.1 ≤ t ∧ t < b.2) := by
    intro j k a b hjk ha hb t ⟨h1, h2, h3, h4⟩
    obtain ⟨-, rfl⟩ := ranges_lookup _ _ _ j a ha
    obtain ⟨-, rfl⟩ := ranges_lookup _ _ _ k b hb
    rcases Nat.lt_or_gt_of_ne hjk with h | h
    · exact ranges_apart _ _ hq j k h t h2 h3
    · exact ranges_apart _ _ hq k j h t h4 h1
  refine ⟨_, threadRanges_ok size numThreads hs hN, rangesLoop_length _ _ _ _ _,
    ⟨_, ranges_getElem? _ _ _ 0 hn, rfl⟩, ?_, ?_, ?_, hdisj, ?_, ?_, ?_⟩
  · intro k a b ha hb
    obtain ⟨-, rfl⟩ := ranges_lookup _ _ _ k a ha
    obtain ⟨-, rfl⟩ := ranges_lookup _ _ _ (k + 1) b hb
    rfl
  · refine ⟨_, ranges_getElem? _ _ _ (numThreads.toNat - 1) (by omega), ?_⟩
    show startOf _ _ (numThreads.toNat - 1 + 1) = size
    rw [Nat.sub_add_cancel hn]
    exact startOf_total size numThreads hN
  · intro p hp
    exact (ranges_valid size numThreads hs hN p hp).2.1
  · intro t
    constructor
    · intro ⟨h0, ht⟩
      exact ranges_cover size numThreads hN t h0 ht
    · intro ⟨p, hp, h1, h2⟩
      have := ranges_valid size numThreads hs hN p hp
      omega
  · intro t h0 ht
    obtain ⟨p, hp, h1, h2⟩ := ranges_cover size numThreads hN t h0 ht
    obtain ⟨k, hk⟩ := List.getElem?_of_mem hp
    refine ⟨k, ⟨p, hk, h1, h2⟩, ?_⟩
    intro k' ⟨p', hk', h1', h2'⟩
    by_contra hne
    exact hdisj k' k p' p hne hk' hk t ⟨h1', h2', h1, h2⟩
  · intro a ha b hb
    obtain ⟨j, -, rfl⟩ := ranges_mem _ _ _ a ha
    obtain ⟨k, -, rfl⟩ := ranges_mem _ _ _ b hb
    simp only [startOf_block]
    split_ifs <;> omega

theorem thread_ranges_partition_witness :
    (0 : Int) ≤ 7 ∧ (1 : Int) ≤ 3 ∧
    ∃ rs, threadRanges 7 3 = .ok rs ∧ rs.length = (3 : Int).toNat ∧
      (∃ p : Int × Int, rs[0]? = some p ∧ p.1 = 0) ∧
      (∀ (k : Nat) (a b : Int × Int), rs[k]? = some a → rs[k + 1]? = some b → b.1 = a.2) ∧
      (∃ p, rs[(3 : Int).toNat - 1]? = some p ∧ p.2 = 7) ∧
      (∀ p ∈ rs, p.1 ≤ p.2) ∧
      (∀ (j k : Nat) (a b : Int × Int), j ≠ k → rs[j]? = some a → rs[k]? = some b →
        ∀ t : Int, ¬ (a.1 ≤ t ∧ t < a.2 ∧ b.1 ≤ t ∧ t < b.2)) ∧
      (∀ t : Int, (0 ≤ t ∧ t < 7) ↔ ∃ p ∈ rs, p.1 ≤ t ∧ t < p.2) ∧
      (∀ t : Int, 0 ≤ t → t < 7 → ∃! k : Nat, ∃ p : Int × Int, rs[k]? = some p ∧ p.1 ≤ t ∧ t < p.2) ∧
      (∀ a ∈ rs, ∀ b ∈ rs, (a.2 - a.1) - (b.2 - b.1) ≤ 1) :=
  ⟨by decide, by decide, thread_ranges_partition 7 3 (by decide) (by decide)⟩

/-- C4: for `size ≥ 0` and `numThreads ≥ 1`, worker `k < numThreads` of
`processMatrixParallel` is handed `size / numThreads + 1` rows when `k < size % numThreads`
and `size / numThreads` rows otherwise; for `size = 4` and three workers the block sizes are
`2, 1, 1`. -/
theorem thread_block_sizes (size numThreads : Int) (hs : 0 ≤ size) (hN : 1 ≤ numThreads) :
    (∃ rs, threadRanges size numThreads = .ok rs ∧ rs.length = numThreads.toNat ∧
      ∀ k : Nat, (k : Int) < numThreads → ∃ p, rs[k]? = some p ∧
        p.2 - p.1 = if (k : Int) < size % numThreads then size / numThreads + 1
          else size / numThreads) ∧
    (threadRanges 4 3).map (List.map fun p => p.2 - p.1) = .ok [2, 1, 1] := by
  refine ⟨⟨_, threadRanges_ok size numThreads hs hN, rangesLoop_length _ _ _ _ _, ?_⟩, rfl⟩
  intro k hk
  refine ⟨_, ranges_getElem? _ _ _ k (by omega), ?_⟩
  simp only [startOf_block]
  split_ifs <;> omega

theorem thread_block_sizes_witness :
    (0 : Int) ≤ 10 ∧ (1 : Int) ≤ 4 ∧
    ((∃ rs, threadRanges 10 4 = .ok rs ∧ rs.length = (4 : Int).toNat ∧
      ∀ k : Nat, (k : Int) < 4 → ∃ p, rs[k]? = some p ∧
        p.2 - p.1 = if (k : Int) < 10 % 4 then 10 / 4 + 1 else 10 / 4) ∧
    (threadRanges 4 3).map (List.map fun p => p.2 - p.1) = .ok [2, 1, 1]) :=
  ⟨by decide, by decide, thread_block_sizes 10 4 (by decide) (by decide)⟩

/-- C5: with more workers than rows (`numThreads > n` on a square matrix of size `n`) each
of the first `n` workers of `processMatrixParallel` is handed exactly one row, each of the
last `numThreads - n` workers an empty range, and the result is still that of
`processMatrixSequential`; for `size = 2` and five workers the last three ranges are
empty. -/
theorem oversubscribed_workers_idle [Zero α] (M : Matrix α) (hsq : IsSquare M)
    (numThreads : Int) (hN : (M.length : Int) < numThreads) :
    (∃ R rs, threadRanges (M.length : Int) numThreads = .ok rs ∧
      rs.length = numThreads.toNat ∧
      (∀ k : Nat, k < M.length → rs[k]? = some ((k : Int), (k : Int) + 1)) ∧
      (∀ k : Nat, M.length ≤ k → (k : Int) < numThreads →
        rs[k]? = some ((M.length : Int), (M.length : Int))) ∧
      numThreads.toNat - M.length ≤ rs.countP (fun p => decide (p.1 = p.2)) ∧
      processMatrixSequential M = .ok R ∧ processMatrixParallel M numThreads = .ok R) ∧
    threadRanges 2 5 = .ok [(0, 1), (1, 2), (2, 2), (2, 2), (2, 2)] := by
  obtain ⟨R, hR, -, -⟩ := sequential_done M hsq
  have hN1 : 1 ≤ numThreads := by omega
  have hlook := ranges_oversubscribed M.length numThreads hN
  refine ⟨⟨R, _, threadRanges_ok (M.length : Int) numThreads (by omega) hN1,
    rangesLoop_length _ _ _ _ _, ?_, ?_, ?_, hR, ?_⟩, rfl⟩
  · intro k hk
    rw [hlook k (by omega), if_pos hk]
  · intro k hk hkN
    rw [hlook k hkN, if_neg (by omega)]
  · have hsplit : rangesLoop ((M.length : Int) / numThreads) ((M.length : Int) % numThreads)
        numThreads.toNat 0 0 =
        (List.range M.length).map (fun k : Nat => ((k : Int), (k : Int) + 1)) ++
          List.replicate (numThreads.toNat - M.length) ((M.length : Int), (M.length : Int)) := by
      apply List.ext_getElem?
      intro k
      by_cases hk : (k : Int) < numThreads
      · rw [hlook k hk]
        by_cases hkn : k < M.length
        · rw [if_pos hkn, List.getElem?_append_left (by simpa using hkn)]
          simp [List.getElem?_range hkn]
        · rw [if_neg hkn, List.getElem?_append_right (by simpa using hkn)]
          rw [List.getElem?_replicate, if_pos (by simp; omega)]
      · rw [List.getElem?_eq_none (by rw [rangesLoop_length]; omega),
          List.getElem?_eq_none (by simp; omega)]
    rw [hsplit, List.countP_append, List.countP_replicate]
    simp
  · rw [parallel_sequential M hsq numThreads hN1, hR]

theorem oversubscribed_workers_idle_witness :
    IsSquare ([[1, 5], [7, 3]] : Matrix ℤ) ∧
    ((([[1, 5], [7, 3]] : Matrix ℤ).length : Int) < 5) ∧
    ((∃ R rs, threadRanges (([[1, 5], [7, 3]] : Matrix ℤ).length : Int) 5 = .ok rs ∧
      rs.length = (5 : Int).toNat ∧
      (∀ k : Nat, k < ([[1, 5], [7, 3]] : Matrix ℤ).length →
        rs[k]? = some ((k : Int), (k : Int) + 1)) ∧
      (∀ k : Nat, ([[1, 5], [7, 3]] : Matrix ℤ).length ≤ k → (k : Int) < 5 →
        rs[k]? = some ((([[1, 5], [7, 3]] : Matrix ℤ).length : Int),
          (([[1, 5], [7, 3]] : Matrix ℤ).length : Int))) ∧
      (5 : Int).toNat - ([[1, 5], [7, 3]] : Matrix ℤ).length
        ≤ rs.countP (fun p => decide (p.1 = p.2)) ∧
      processMatrixSequential ([[1, 5], [7, 3]] : Matrix ℤ) = .ok R ∧
      processMatrixParallel ([[1, 5], [7, 3]] : Matrix ℤ) 5 = .ok R) ∧
    threadRanges 2 5 = .ok [(0, 1), (1, 2), (2, 2), (2, 2), (2, 2)]) :=
  ⟨by decide, by decide, oversubscribed_workers_idle _ (by decide) 5 (by decide)⟩

/-- C6: the transform is idempotent: on a square matrix, `processMatrixSequential` applied
to its own result returns that result unchanged, also when a row holds its maximum more
than once. -/
theorem sequential_idempotent (M : Matrix α) (hsq : IsSquare M) :
    ∃ R, processMatrixSequential M = .ok R ∧ processMatrixSequential R = .ok R := by
  obtain ⟨R, hR, hRlen, hRdone⟩ := sequential_done M hsq
  have hrows : ∀ (t : Nat) (r : List α), R[t]? = some r → r.length = R.length ∧
      transformRow R.length r (t : Int) = .ok r := by
    intro t r hr
    have ht : t < M.length := by
      have := getElem?_lt R t r hr
      omega
    obtain ⟨row, m, x, d, -, hlen, -, hp, hd, hr'⟩ := RowDone_shape M R hsq t (hRdone t ht)
    rw [hr] at hr'
    cases hr'
    have hl : ((row.set m d).set t x).length = R.length := by simp [hlen, hRlen]
    refine ⟨hl, transformRow_fixed R.length _ t x hl (by omega)
      (List.getElem?_set_self (by simp; omega)) ?_⟩
    intro j y hj
    obtain ⟨j', hj'⟩ := swapped_entries row m t x d hp.1 hd j y hj
    exact hp.2.2.1 j' y (by have := getElem?_lt row j' y hj'; omega) hj'
  have hsqR : IsSquare R := by
    intro r hr
    obtain ⟨t, ht⟩ := List.getElem?_of_mem hr
    exact (hrows t r ht).1
  obtain ⟨R2, hR2, hR2len, hR2done⟩ := sequential_done R hsqR
  refine ⟨R, hR, ?_⟩
  rw [hR2]
  congr 1
  apply List.ext_getElem?
  intro t
  by_cases ht : t < R.length
  · obtain ⟨r, r2, h1, h2, h3⟩ := hR2done t ht
    rw [(hrows t r h1).2] at h3
    cases h3
    rw [h1, h2]
  · rw [List.getElem?_eq_none (by omega), List.getElem?_eq_none (by omega)]

theorem sequential_idempotent_witness :
    IsSquare ([[4, 9, 9], [7, 3, 7], [2, 8, 8]] : Matrix ℤ) ∧
      ∃ R, processMatrixSequential ([[4, 9, 9], [7, 3, 7], [2, 8, 8]] : Matrix ℤ) = .ok R ∧
        processMatrixSequential R = .ok R :=
  ⟨by decide, sequential_idempotent _ (by decide)⟩

/-- C7: on a 1×1 matrix the transform does nothing: `processMatrixSequential` returns the
matrix itself, and so does `processMatrixParallel` for every worker count of at least 1. -/
theorem one_by_one_unchanged [Zero α] (M : Matrix α) (hsq : IsSquare M)
    (hone : M.length = 1) :
    processMatrixSequential M = .ok M ∧
      ∀ numThreads : Int, 1 ≤ numThreads → processMatrixParallel M numThreads = .ok M := by
  have hseq : processMatrixSequential M = .ok M := by
    obtain ⟨R, hR, hRlen, hRdone⟩ := sequential_done M hsq
    rw [hR]
    congr 1
    apply List.ext_getElem?
    intro t
    by_cases ht : t < M.length
    · have ht0 : t = 0 := by omega
      subst ht0
      obtain ⟨row, r, h1, h2, h3⟩ := hRdone 0 ht
      have hlen : row.length = M.length := hsq row (List.getElem?_mem h1)
      have hx : row[0]? = some row[0] := List.getElem?_eq_getElem (by omega)
      have hfix := transformRow_fixed M.length row 0 row[0] hlen ht hx (by
        intro j y hj
        have hj0 : j = 0 := by
          have := getElem?_lt row j y hj
          omega
        subst hj0
        rw [hx] at hj
        exact le_of_eq (Option.some.inj hj).symm)
      rw [hfix] at h3
      cases h3
      rw [h1, h2]
    · rw [List.getElem?_eq_none (by omega), List.getElem?_eq_none (by omega)]
  refine ⟨hseq, ?_⟩
  intro numThreads hN
  rw [parallel_sequential M hsq numThreads hN, hseq]

theorem one_by_one_unchanged_witness :
    IsSquare ([[42]] : Matrix ℤ) ∧ ([[42]] : Matrix ℤ).length = 1 ∧
      (processMatrixSequential ([[42]] : Matrix ℤ) = .ok [[42]] ∧
        ∀ numThreads : Int, 1 ≤ numThreads →
          processMatrixParallel ([[42]] : Matrix ℤ) numThreads = .ok [[42]]) :=
  ⟨by decide, by decide, one_by_one_unchanged _ (by decide) (by decide)⟩

/-- C8, as the code behaves: with a worker count of `0`, `processMatrixParallel` reaches the
division `size / numThreads` of line 76 with a zero divisor, for every matrix. -/
theorem parallel_zero_workers_divides_by_zero [Zero α] (M : Matrix α) :
    processMatrixParallel M 0 = .error Fault.divByZero := by
  unfold processMatrixParallel threadRanges
  simp [bind, Except.bind]

/-- C9: ties are resolved by first occurrence.  On a square matrix, with `m` the smallest
column at which row `M[i]` holds its maximum `x`, the result `R` of
`processMatrixSequential`, which is also the result of `processMatrixParallel` for every
worker count of at least 1, has `R[i][i] = M[i][m]`, `R[i][m] = M[i][i]` and
`R[i][j] = M[i][j]` at every other column `j`. -/
theorem first_maximum_swapped_to_diagonal [Zero α] (M : Matrix α) (hsq : IsSquare M) :
    ∃ R, processMatrixSequential M = .ok R ∧
      (∀ numThreads : Int, 1 ≤ numThreads → processMatrixParallel M numThreads = .ok R) ∧
      ∀ i : Nat, i < M.length → ∃ (row r : List α) (m : Nat) (x d : α),
        M[i]? = some row ∧ R[i]? = some r ∧
        row[m]? = some x ∧ (∀ y ∈ row, y ≤ x) ∧ (∀ t : Nat, t < m → row[t]? ≠ some x) ∧
        row[i]? = some d ∧
        r[i]? = some x ∧ r[m]? = some d ∧ ∀ j : Nat, j ≠ i → j ≠ m → r[j]? = row[j]? := by
  obtain ⟨R, hR, hRlen, hRdone⟩ := sequential_done M hsq
  refine ⟨R, hR, fun N hN => by rw [parallel_sequential M hsq N hN, hR], ?_⟩
  intro i hi
  obtain ⟨row, m, x, d, h1, hlen, -, hp, hd, hr⟩ := RowDone_shape M R hsq i (hRdone i hi)
  have hm : m < row.length := getElem?_lt row m x hp.1
  have hii : ((row.set m d).set i x)[i]? = some x := List.getElem?_set_self (by simp; omega)
  refine ⟨row, _, m, x, d, h1, hr, hp.1, ?_, ?_, hd, hii, ?_, ?_⟩
  · intro y hy
    obtain ⟨t, ht⟩ := List.getElem?_of_mem hy
    exact hp.2.2.1 t y (by have := getElem?_lt row t y ht; omega) ht
  · intro t ht hc
    exact lt_irrefl x (hp.2.2.2 t x ht hc)
  · by_cases hmi : m = i
    · subst hmi
      rw [hp.1] at hd
      cases hd
      exact hii
    · rw [List.getElem?_set_ne (fun h => hmi h.symm)]
      exact List.getElem?_set_self hm
  · intro j hji hjm
    rw [List.getElem?_set_ne (fun h => hji h.symm), List.getElem?_set_ne (fun h => hjm h.symm)]

theorem first_maximum_swapped_to_diagonal_witness :
    IsSquare ([[4, 9, 9], [7, 3, 7], [2, 8, 8]] : Matrix ℤ) ∧
    ∃ R, processMatrixSequential ([[4, 9, 9], [7, 3, 7], [2, 8, 8]] : Matrix ℤ) = .ok R ∧
      (∀ numThreads : Int, 1 ≤ numThreads →
        processMatrixParallel ([[4, 9, 9], [7, 3, 7], [2, 8, 8]] : Matrix ℤ) numThreads
          = .ok R) ∧
      ∀ i : Nat, i < ([[4, 9, 9], [7, 3, 7], [2, 8, 8]] : Matrix ℤ).length →
        ∃ (row r : List ℤ) (m : Nat) (x d : ℤ),
          ([[4, 9, 9], [7, 3, 7], [2, 8, 8]] : Matrix ℤ)[i]? = some row ∧ R[i]? = some r ∧
          row[m]? = some x ∧ (∀ y ∈ row, y ≤ x) ∧ (∀ t : Nat, t < m → row[t]? ≠ some x) ∧
          row[i]? = some d ∧
          r[i]? = some x ∧ r[m]? = some d ∧ ∀ j : Nat, j ≠ i → j ≠ m → r[j]? = row[j]? :=
  ⟨by decide, first_maximum_swapped_to_diagonal _ (by decide)⟩

/-- C10: a worker writes only to its own rows.  For a square matrix `M`, a result matrix
`R` with as many rows, and `0 ≤ startRow ≤ endRow ≤ M.size()`, `processRowsRange` returns a
matrix with as many rows in which every row outside `[startRow, endRow)` is the row of `R`;
a block of zero rows (`startRow = endRow`) returns `R` itself. -/
theorem rows_range_frame (M : Matrix α) (hsq : IsSquare M) (R : Matrix α)
    (hshape : R.length = M.length) (startRow endRow : Int) (h0 : 0 ≤ startRow)
    (hse : startRow ≤ endRow) (hen : endRow ≤ M.length) :
    ∃ R', processRowsRange M R startRow endRow = .ok R' ∧ R'.length = R.length ∧
      (∀ t : Nat, (t : Int) < startRow ∨ endRow ≤ t → R'[t]? = R[t]?) ∧
      (startRow = endRow → R' = R) := by
  obtain ⟨R', hR', hlen', -, hrest⟩ :=
    processRowsRange_spec M hsq R hshape startRow endRow h0 hse hen
  refine ⟨R', hR', by omega, hrest, ?_⟩
  intro heq
  apply List.ext_getElem?
  intro t
  exact hrest t (by omega)

theorem rows_range_frame_witness :
    IsSquare ([[4, 9, 9], [7, 3, 7], [2, 8, 8]] : Matrix ℤ) ∧
    ([[0, 0, 0], [1, 1, 1], [5, 5, 5]] : Matrix ℤ).length
      = ([[4, 9, 9], [7, 3, 7], [2, 8, 8]] : Matrix ℤ).length ∧
    (0 : Int) ≤ 1 ∧ (1 : Int) ≤ 2 ∧
    (2 : Int) ≤ (([[4, 9, 9], [7, 3, 7], [2, 8, 8]] : Matrix ℤ).length : Int) ∧
    ∃ R', processRowsRange ([[4, 9, 9], [7, 3, 7], [2, 8, 8]] : Matrix ℤ)
        ([[0, 0, 0], [1, 1, 1], [5, 5, 5]] : Matrix ℤ) 1 2 = .ok R' ∧
      R'.length = ([[0, 0, 0], [1, 1, 1], [5, 5, 5]] : Matrix ℤ).length ∧
      (∀ t : Nat, (t : Int) < 1 ∨ (2 : Int) ≤ t →
        R'[t]? = ([[0, 0, 0], [1, 1, 1], [5, 5, 5]] : Matrix ℤ)[t]?) ∧
      ((1 : Int) = 2 → R' = ([[0, 0, 0], [1, 1, 1], [5, 5, 5]] : Matrix ℤ)) :=
  ⟨by decide, by decide, by decide, by decide, by decide,
    rows_range_frame _ (by decide) _ (by decide) 1 2 (by decide) (by decide) (by decide)⟩

/-! ## Rows as permutations -/

theorem cons_set_perm {β : Type} :
    ∀ (tl : List β) (k : Nat) (d a : β), tl[k]? = some d →
      (d :: tl.set k a).Perm (a :: tl) := by
  intro tl
  induction tl with
  | nil =>
    intro k d a h
    simp at h
  | cons b t ih =>
    intro k d a h
    cases k with
    | zero =>
      simp only [List.getElem?_cons_zero, Option.some.injEq] at h
      subst h
      exact List.Perm.swap _ _ _
    | succ k =>
      simp only [List.getElem?_cons_succ] at h
      simp only [List.set_cons_succ]
      exact ((List.Perm.swap b d _).trans ((ih k d a h).cons b)).trans (List.Perm.swap a b t)

theorem swapped_perm {β : Type} :
    ∀ (row : List β) (m t : Nat) (x d : β), row[m]? = some x → row[t]? = some d →
      ((row.set m d).set t x).Perm row := by
  intro row
  induction row with
  | nil =>
    intro m t x d hm _
    simp at hm
  | cons a tl ih =>
    intro m t x d hm ht
    cases m with
    | zero =>
      simp only [List.getElem?_cons_zero, Option.some.injEq] at hm
      subst hm
      cases t with
      | zero =>
        simp only [List.getElem?_cons_zero, Option.some.injEq] at ht
        subst ht
        simp
      | succ t =>
        simp only [List.getElem?_cons_succ] at ht
        simp only [List.set_cons_zero, List.set_cons_succ]
        exact cons_set_perm tl t d a ht
    | succ m =>
      simp only [List.getElem?_cons_succ] at hm
      cases t with
      | zero =>
        simp only [List.getElem?_cons_zero, Option.some.injEq] at ht
        subst ht
        simp only [List.set_cons_zero, List.set_cons_succ]
        exact cons_set_perm tl m x a hm
      | succ t =>
        simp only [List.getElem?_cons_succ] at ht
        simp only [List.set_cons_succ]
        exact (ih m t x d hm ht).cons a

/-- C11: on a square matrix, row `i` of the result of `processMatrixSequential` equals the
original row `M[i]` exactly when the diagonal value `M[i][i]` is a maximum of that row, that
is, when no entry of `M[i]` exceeds it; this covers the case in which the first maximum sits
at another column that holds the same value. -/
theorem row_unchanged_iff_diagonal_is_max (M : Matrix α) (hsq : IsSquare M) :
    ∃ R, processMatrixSequential M = .ok R ∧
      ∀ i : Nat, i < M.length → ∃ (row r : List α) (d : α),
        M[i]? = some row ∧ R[i]? = some r ∧ row[i]? = some d ∧
        (r = row ↔ ∀ y ∈ row, y ≤ d) := by
  obtain ⟨R, hR, hRlen, hRdone⟩ := sequential_done M hsq
  refine ⟨R, hR, ?_⟩
  intro i hi
  obtain ⟨row, r, h1, h2, h3⟩ := hRdone i hi
  have hlen : row.length = M.length := hsq row (List.getElem?_mem h1)
  obtain ⟨m, x, d, hp, hd, hr⟩ := transformRow_spec M.length row i hlen hi
  refine ⟨row, r, d, h1, h2, hd, ?_, ?_⟩
  · intro heq y hy
    rw [h3] at hr
    cases hr
    have hii : ((row.set m d).set i x)[i]? = some x := List.getElem?_set_self (by simp; omega)
    rw [heq, hd] at hii
    cases hii
    obtain ⟨t, ht⟩ := List.getElem?_of_mem hy
    exact hp.2.2.1 t y (by have := getElem?_lt row t y ht; omega) ht
  · intro hmax
    have hfix := transformRow_fixed M.length row i d hlen hi hd
      (fun j y hj => hmax y (List.getElem?_mem hj))
    rw [h3] at hfix
    cases hfix
    rfl

theorem row_unchanged_iff_diagonal_is_max_witness :
    IsSquare ([[9, 4, 9], [7, 3, 7], [2, 8, 8]] : Matrix ℤ) ∧
    ∃ R, processMatrixSequential ([[9, 4, 9], [7, 3, 7], [2, 8, 8]] : Matrix ℤ) = .ok R ∧
      ∀ i : Nat, i < ([[9, 4, 9], [7, 3, 7], [2, 8, 8]] : Matrix ℤ).length →
        ∃ (row r : List ℤ) (d : ℤ),
          ([[9, 4, 9], [7, 3, 7], [2, 8, 8]] : Matrix ℤ)[i]? = some row ∧ R[i]? = some r ∧
          row[i]? = some d ∧ (r = row ↔ ∀ y ∈ row, y ≤ d) :=
  ⟨by decide, row_unchanged_iff_diagonal_is_max _ (by decide)⟩

/-- C14: on a square matrix of size `n`, `processMatrixSequential` returns `n` rows of length
`n`; output row `i` is a permutation of input row `M[i]` and differs from it in at most two
columns. -/
theorem sequential_rows_permuted (M : Matrix α) (hsq : IsSquare M) :
    ∃ R, processMatrixSequential M = .ok R ∧ R.length = M.length ∧
      (∀ r ∈ R, r.length = M.length) ∧
      ∀ i : Nat, i < M.length → ∃ (row r : List α),
        M[i]? = some row ∧ R[i]? = some r ∧ r.Perm row ∧
        ∃ a b : Nat, ∀ j : Nat, j ≠ a → j ≠ b → r[j]? = row[j]? := by
  obtain ⟨R, hR, hRlen, hRdone⟩ := sequential_done M hsq
  refine ⟨R, hR, hRlen, ?_, ?_⟩
  · intro r hr
    obtain ⟨t, ht⟩ := List.getElem?_of_mem hr
    have htM : t < M.length := by
      have := getElem?_lt R t r ht
      omega
    obtain ⟨row, m, x, d, -, hlen, -, -, -, hr'⟩ := RowDone_shape M R hsq t (hRdone t htM)
    rw [ht] at hr'
    cases hr'
    simp [hlen]
  · intro i hi
    obtain ⟨row, m, x, d, h1, -, -, hp, hd, hr⟩ := RowDone_shape M R hsq i (hRdone i hi)
    refine ⟨row, _, h1, hr, swapped_perm row m i x d hp.1 hd, i, m, ?_⟩
    intro j hji hjm
    rw [List.getElem?_set_ne (fun h => hji h.symm), List.getElem?_set_ne (fun h => hjm h.symm)]

theorem sequential_rows_permuted_witness :
    IsSquare ([[4, 9, 9], [7, 3, 7], [2, 8, 5]] : Matrix ℤ) ∧
    ∃ R, processMatrixSequential ([[4, 9, 9], [7, 3, 7], [2, 8, 5]] : Matrix ℤ) = .ok R ∧
      R.length = ([[4, 9, 9], [7, 3, 7], [2, 8, 5]] : Matrix ℤ).length ∧
      (∀ r ∈ R, r.length = ([[4, 9, 9], [7, 3, 7], [2, 8, 5]] : Matrix ℤ).length) ∧
      ∀ i : Nat, i < ([[4, 9, 9], [7, 3, 7], [2, 8, 5]] : Matrix ℤ).length →
        ∃ (row r : List ℤ),
          ([[4, 9, 9], [7, 3, 7], [2, 8, 5]] : Matrix ℤ)[i]? = some row ∧ R[i]? = some r ∧
          r.Perm row ∧ ∃ a b : Nat, ∀ j : Nat, j ≠ a → j ≠ b → r[j]? = row[j]? :=
  ⟨by decide, sequential_rows_permuted _ (by decide)⟩

/-- C15: on a square matrix and with at least one worker no vector is indexed out of
bounds.  Both executors return a matrix instead of a fault; every worker range satisfies
`0 ≤ startRow ≤ endRow ≤ n`; and each worker, started on any result matrix of `n` rows, and
the workers taken in any order, return a matrix as well. -/
theorem indices_stay_in_bounds [Zero α] (M : Matrix α) (hsq : IsSquare M)
    (numThreads : Int) (hN : 1 ≤ numThreads) :
    (∃ R, processMatrixSequential M = .ok R) ∧
    (∃ R, processMatrixParallel M numThreads = .ok R) ∧
    ∃ rs, threadRanges (M.length : Int) numThreads = .ok rs ∧
      (∀ p ∈ rs, 0 ≤ p.1 ∧ p.1 ≤ p.2 ∧ p.2 ≤ (M.length : Int)) ∧
      (∀ p ∈ rs, ∀ res : Matrix α, res.length = M.length →
        ∃ R, processRowsRange M res p.1 p.2 = .ok R) ∧
      (∀ order : List (Int × Int), order.Perm rs →
        ∃ R, runWorkers M order (zeroMatrix α M.length) = .ok R) := by
  obtain ⟨R, hR, -, -⟩ := sequential_done M hsq
  have hval := ranges_valid (M.length : Int) numThreads (by omega) hN
  refine ⟨⟨R, hR⟩, ⟨R, by rw [parallel_sequential M hsq numThreads hN, hR]⟩, _,
    threadRanges_ok (M.length : Int) numThreads (by omega) hN, hval, ?_, ?_⟩
  · intro p hp res hres
    obtain ⟨h0, hse, hen⟩ := hval p hp
    obtain ⟨R', hR', -⟩ := processRowsRange_spec M hsq res hres p.1 p.2 h0 hse hen
    exact ⟨R', hR'⟩
  · intro order hperm
    exact ⟨R, by rw [workers_permuted M hsq numThreads hN order hperm, hR]⟩

theorem indices_stay_in_bounds_witness :
    IsSquare ([[4, 9, 9], [7, 3, 7], [2, 8, 5]] : Matrix ℤ) ∧ (1 : Int) ≤ 2 ∧
    ((∃ R, processMatrixSequential ([[4, 9, 9], [7, 3, 7], [2, 8, 5]] : Matrix ℤ) = .ok R) ∧
    (∃ R, processMatrixParallel ([[4, 9, 9], [7, 3, 7], [2, 8, 5]] : Matrix ℤ) 2 = .ok R) ∧
    ∃ rs, threadRanges (([[4, 9, 9], [7, 3, 7], [2, 8, 5]] : Matrix ℤ).length : Int) 2
        = .ok rs ∧
      (∀ p ∈ rs, 0 ≤ p.1 ∧ p.1 ≤ p.2 ∧
        p.2 ≤ (([[4, 9, 9], [7, 3, 7], [2, 8, 5]] : Matrix ℤ).length : Int)) ∧
      (∀ p ∈ rs, ∀ res : Matrix ℤ,
        res.length = ([[4, 9, 9], [7, 3, 7], [2, 8, 5]] : Matrix ℤ).length →
        ∃ R, processRowsRange ([[4, 9, 9], [7, 3, 7], [2, 8, 5]] : Matrix ℤ) res p.1 p.2
          = .ok R) ∧
      (∀ order : List (Int × Int), order.Perm rs →
        ∃ R, runWorkers ([[4, 9, 9], [7, 3, 7], [2, 8, 5]] : Matrix ℤ) order
          (zeroMatrix ℤ ([[4, 9, 9], [7, 3, 7], [2, 8, 5]] : Matrix ℤ).length) = .ok R)) :=
  ⟨by decide, by decide, indices_stay_in_bounds _ (by decide) 2 (by decide)⟩

/-- C16: rows are processed independently.  For square matrices `M` and `M'` of the same
size that agree on row `i`, both runs of `processMatrixSequential` produce the same row `i`,
namely what the loop body makes of `M[i]` at index `i`; and `processRowsRange`, on either
matrix, from any result matrix of that many rows and with any valid range that contains
`i`, writes that same row. -/
theorem rows_processed_independently (M M' : Matrix α) (hsq : IsSquare M)
    (hsq' : IsSquare M') (hlen : M.length = M'.length) (i : Nat) (row : List α)
    (hrow : M[i]? = some row) (hrow' : M'[i]? = some row) :
    ∃ r R R', transformRow M.length row (i : Int) = .ok r ∧
      processMatrixSequential M = .ok R ∧ processMatrixSequential M' = .ok R' ∧
      R[i]? = some r ∧ R'[i]? = some r ∧
      ∀ (res res' : Matrix α) (s e s' e' : Int),
        res.length = M.length → res'.length = M.length →
        0 ≤ s → s ≤ i → (i : Int) < e → e ≤ M.length →
        0 ≤ s' → s' ≤ i → (i : Int) < e' → e' ≤ M.length →
        ∃ Q Q', processRowsRange M res s e = .ok Q ∧
          processRowsRange M' res' s' e' = .ok Q' ∧ Q[i]? = some r ∧ Q'[i]? = some r := by
  have hi : i < M.length := getElem?_lt M i row hrow
  have pick : ∀ (A B : Matrix α), A.length = M.length → A[i]? = some row →
      RowDone A B i → ∃ r, B[i]? = some r ∧ transformRow M.length row (i : Int) = .ok r := by
    intro A B hA hAi hdone
    obtain ⟨row1, r, h1, h2, h3⟩ := hdone
    rw [hAi] at h1
    cases h1
    rw [hA] at h3
    exact ⟨r, h2, h3⟩
  obtain ⟨R, hR, -, hRdone⟩ := sequential_done M hsq
  obtain ⟨R', hR', -, hRdone'⟩ := sequential_done M' hsq'
  obtain ⟨r, hr1, hr2⟩ := pick M R rfl hrow (hRdone i hi)
  obtain ⟨r', hr1', hr2'⟩ := pick M' R' hlen.symm hrow' (hRdone' i (by omega))
  rw [hr2] at hr2'
  cases hr2'
  refine ⟨r, R, R', hr2, hR, hR', hr1, hr1', ?_⟩
  intro res res' s e s' e' hres hres' h0 hsi hie hen h0' hsi' hie' hen'
  obtain ⟨Q, hQ, -, hQdone, -⟩ :=
    processRowsRange_spec M hsq res hres s e h0 (by omega) hen
  obtain ⟨Q', hQ', -, hQdone', -⟩ :=
    processRowsRange_spec M' hsq' res' (by omega) s' e' h0' (by omega) (by omega)
  obtain ⟨q, hq1, hq2⟩ := pick M Q rfl hrow (hQdone i hsi hie)
  obtain ⟨q', hq1', hq2'⟩ := pick M' Q' hlen.symm hrow' (hQdone' i hsi' hie')
  rw [hr2] at hq2 hq2'
  cases hq2
  cases hq2'
  exact ⟨Q, Q', hQ, hQ', hq1, hq1'⟩

theorem rows_processed_independently_witness :
    IsSquare ([[4, 9, 9], [7, 3, 7], [2, 8, 5]] : Matrix ℤ) ∧
    IsSquare ([[1, 1, 6], [7, 3, 7], [0, 0, 0]] : Matrix ℤ) ∧
    ([[4, 9, 9], [7, 3, 7], [2, 8, 5]] : Matrix ℤ).length
      = ([[1, 1, 6], [7, 3, 7], [0, 0, 0]] : Matrix ℤ).length ∧
    ([[4, 9, 9], [7, 3, 7], [2, 8, 5]] : Matrix ℤ)[1]? = some [7, 3, 7] ∧
    ([[1, 1, 6], [7, 3, 7], [0, 0, 0]] : Matrix ℤ)[1]? = some [7, 3, 7] ∧
    ∃ r R R', transformRow ([[4, 9, 9], [7, 3, 7], [2, 8, 5]] : Matrix ℤ).length
        ([7, 3, 7] : List ℤ) ((1 : Nat) : Int) = .ok r ∧
      processMatrixSequential ([[4, 9, 9], [7, 3, 7], [2, 8, 5]] : Matrix ℤ) = .ok R ∧
      processMatrixSequential ([[1, 1, 6], [7, 3, 7], [0, 0, 0]] : Matrix ℤ) = .ok R' ∧
      R[1]? = some r ∧ R'[1]? = some r ∧
      ∀ (res res' : Matrix ℤ) (s e s' e' : Int),
        res.length = ([[4, 9, 9], [7, 3, 7], [2, 8, 5]] : Matrix ℤ).length →
        res'.length = ([[4, 9, 9], [7, 3, 7], [2, 8, 5]] : Matrix ℤ).length →
        0 ≤ s → s ≤ ((1 : Nat) : Int) → (((1 : Nat) : Int)) < e →
        e ≤ (([[4, 9, 9], [7, 3, 7], [2, 8, 5]] : Matrix ℤ).length : Int) →
        0 ≤ s' → s' ≤ ((1 : Nat) : Int) → (((1 : Nat) : Int)) < e' →
        e' ≤ (([[4, 9, 9], [7, 3, 7], [2, 8, 5]] : Matrix ℤ).length : Int) →
        ∃ Q Q', processRowsRange ([[4, 9, 9], [7, 3, 7], [2, 8, 5]] : Matrix ℤ) res s e
            = .ok Q ∧
          processRowsRange ([[1, 1, 6], [7, 3, 7], [0, 0, 0]] : Matrix ℤ) res' s' e'
            = .ok Q' ∧ Q[1]? = some r ∧ Q'[1]? = some r :=
  ⟨by decide, by decide, by decide, by decide, by decide,
    rows_processed_independently _ _ (by decide) (by decide) (by decide) 1 [7, 3, 7]
      (by decide) (by decide)⟩

/-! ## The thread counts and the sweep -/

theorem wrapInt32_fits (x : Int) (hlo : -2147483648 ≤ x) (hhi : x < 2147483648) :
    wrapInt32 x = x := by
  unfold wrapInt32
  omega

theorem threadCounts_exact (L : Int) (h0 : 0 ≤ L) (hfit : L < 134217728) :
    threadCounts L = [L / 2 / 2, L / 2, L, 2 * L, 4 * L, 8 * L, 16 * L] := by
  unfold threadCounts physicalCores
  rw [Int.tdiv_eq_ediv h0 (by omega), Int.tdiv_eq_ediv (by omega) (by omega),
    wrapInt32_fits _ (by omega) (by omega), wrapInt32_fits _ (by omega) (by omega),
    wrapInt32_fits _ (by omega) (by omega), wrapInt32_fits _ (by omega) (by omega)]
  simp only [mul_comm]

theorem thread_counts_exact_zero (L : Int) (h0 : 0 ≤ L) (hL : L < 4) :
    (0 : Int) ∈ threadCounts L := by
  rw [threadCounts_exact L h0 (by omega)]
  simp only [List.mem_cons]
  left
  omega

/-- C12, as the code behaves: for a reported core count `0 ≤ L < 2^27`, so that `16 * L`
fits a 32-bit `int`, the derived list is `(L/2/2, L/2, L, 2L, 4L, 8L, 16L)` with integer
division; it has a zero entry exactly when `L < 4`; and for `L = 0` the estimate
`physicalCores` is `0` and every entry is `0`. -/
theorem thread_counts_derived (L : Int) (h0 : 0 ≤ L) (hfit : L < 134217728) :
    threadCounts L = [L / 2 / 2, L / 2, L, 2 * L, 4 * L, 8 * L, 16 * L] ∧
    (0 ∈ threadCounts L ↔ L < 4) ∧
    (L = 0 → physicalCores L = 0 ∧ ∀ c ∈ threadCounts L, c = 0) := by
  have hex := threadCounts_exact L h0 hfit
  refine ⟨hex, ?_, ?_⟩
  · rw [hex]
    simp only [List.mem_cons, List.mem_singleton, List.not_mem_nil, or_false]
    constructor
    · intro h
      omega
    · intro h
      left
      omega
  · intro hL
    subst hL
    refine ⟨by decide, ?_⟩
    intro c hc
    rw [hex] at hc
    simp at hc
    exact hc

theorem thread_counts_derived_witness :
    (0 : Int) ≤ 6 ∧ (6 : Int) < 134217728 ∧
    (threadCounts 6 = [6 / 2 / 2, 6 / 2, 6, 2 * 6, 4 * 6, 8 * 6, 16 * 6] ∧
    (0 ∈ threadCounts 6 ↔ (6 : Int) < 4) ∧
    ((6 : Int) = 0 → physicalCores 6 = 0 ∧ ∀ c ∈ threadCounts 6, c = 0)) :=
  ⟨by decide, by decide, thread_counts_derived 6 (by decide) (by decide)⟩

/-- C12 as stated fails once `16 * L` no longer fits an `int`: for `L = 2^27` the last entry
of the list is not `16 * L`. -/
theorem thread_counts_overflow :
    (0 : Int) ≤ 134217728 ∧
    threadCounts 134217728 ≠
      [134217728 / 2 / 2, 134217728 / 2, 134217728, 2 * 134217728, 4 * 134217728,
        8 * 134217728, 16 * 134217728] := by
  decide

theorem generateRandomMatrix_square {β : Type} (dis : Nat → Nat → β) (size : Int) :
    IsSquare (generateRandomMatrix dis size) := by
  intro row hrow
  unfold generateRandomMatrix at hrow ⊢
  obtain ⟨i, -, rfl⟩ := List.mem_map.mp hrow
  simp

theorem parallel_negative [Zero α] (M : Matrix α) (numThreads : Int) (hN : numThreads < 0) :
    processMatrixParallel M numThreads = .ok (zeroMatrix α M.length) := by
  unfold processMatrixParallel threadRanges
  have h1 : numThreads ≠ 0 := by omega
  have h2 : numThreads.toNat = 0 := by omega
  simp [bind, Except.bind, h1, h2, rangesLoop, runWorkers]

theorem measure_sequential [Zero α] {τ : Type} (elapsed : Matrix α → Bool → Int → τ)
    (M : Matrix α) (hsq : IsSquare M) (numThreads : Int) :
    measureExecutionTime elapsed M false numThreads = .ok (elapsed M false numThreads) := by
  obtain ⟨R, hR, -, -⟩ := sequential_done M hsq
  unfold measureExecutionTime
  simp [bind, Except.bind, hR, pure, Except.pure]

theorem measure_parallel [Zero α] {τ : Type} (elapsed : Matrix α → Bool → Int → τ)
    (M : Matrix α) (hsq : IsSquare M) (numThreads : Int) (hN : numThreads ≠ 0) :
    measureExecutionTime elapsed M true numThreads = .ok (elapsed M true numThreads) := by
  have hpar : ∃ R, processMatrixParallel M numThreads = .ok R := by
    rcases lt_or_gt_of_ne hN with h | h
    · exact ⟨_, parallel_negative M numThreads h⟩
    · obtain ⟨R, hR, -, -⟩ := sequential_done M hsq
      exact ⟨R, by rw [parallel_sequential M hsq numThreads (by omega), hR]⟩
  obtain ⟨R, hR⟩ := hpar
  unfold measureExecutionTime
  simp [bind, Except.bind, hR, pure, Except.pure]

theorem measure_parallel_zero [Zero α] {τ : Type} (elapsed : Matrix α → Bool → Int → τ)
    (M : Matrix α) :
    measureExecutionTime elapsed M true 0 = .error Fault.divByZero := by
  unfold measureExecutionTime processMatrixParallel threadRanges
  simp [bind, Except.bind]

theorem parallelTrials_ok [Zero α] {τ : Type} (elapsed : Matrix α → Bool → Int → τ)
    (M : Matrix α) (hsq : IsSquare M) (size : Int) :
    ∀ (counts : List Int) (results : List (ExecutionResult τ)), (∀ c ∈ counts, c ≠ 0) →
      parallelTrials elapsed M size counts results =
        .ok (results ++ counts.map fun threads => ⟨threads, size, elapsed M true threads⟩) := by
  intro counts
  induction counts with
  | nil =>
    intro results _
    simp [parallelTrials]
  | cons c rest ih =>
    intro results hne
    unfold parallelTrials
    rw [measure_parallel elapsed M hsq c (hne c (List.mem_cons_self _ _))]
    simp only [bind, Except.bind]
    rw [ih _ (fun c' hc' => hne c' (List.mem_cons_of_mem _ hc'))]
    simp

theorem parallelTrials_fault [Zero α] {τ : Type} (elapsed : Matrix α → Bool → Int → τ)
    (M : Matrix α) (hsq : IsSquare M) (size : Int) :
    ∀ (counts : List Int) (results : List (ExecutionResult τ)), (0 : Int) ∈ counts →
      parallelTrials elapsed M size counts results = .error Fault.divByZero := by
  intro counts
  induction counts with
  | nil =>
    intro results h
    cases h
  | cons c rest ih =>
    intro results h
    unfold parallelTrials
    by_cases hc : c = 0
    · subst hc
      rw [measure_parallel_zero]
      rfl
    · rw [measure_parallel elapsed M hsq c hc]
      simp only [bind, Except.bind]
      rcases List.mem_cons.mp h with h1 | h1
      · exact absurd h1.symm hc
      · exact ih _ h1

theorem sweepSizes_ok [Zero α] {τ : Type} (draws : Int → Nat → Nat → α)
    (elapsed : Matrix α → Bool → Int → τ) (counts : List Int) (hne : ∀ c ∈ counts, c ≠ 0) :
    ∀ (sizes : List Int) (results : List (ExecutionResult τ)),
      sweepSizes draws elapsed counts sizes results =
        .ok (results ++ (sizes.map (recordsFor draws elapsed counts)).flatten) := by
  intro sizes
  induction sizes with
  | nil =>
    intro results
    simp [sweepSizes]
  | cons size rest ih =>
    intro results
    have hsq := generateRandomMatrix_square (draws size) size
    unfold sweepSizes
    simp only [measure_sequential elapsed _ hsq, bind, Except.bind,
      parallelTrials_ok elapsed _ hsq size counts _ hne, ih]
    simp [recordsFor]

theorem sweepSizes_fault [Zero α] {τ : Type} (draws : Int → Nat → Nat → α)
    (elapsed : Matrix α → Bool → Int → τ) (counts : List Int) (hzero : (0 : Int) ∈ counts)
    (size : Int) (rest : List Int) (results : List (ExecutionResult τ)) :
    sweepSizes draws elapsed counts (size :: rest) results = .error Fault.divByZero := by
  have hsq := generateRandomMatrix_square (draws size) size
  unfold sweepSizes
  simp only [measure_sequential elapsed _ hsq, bind, Except.bind,
    parallelTrials_fault elapsed _ hsq size counts _ hzero]

/-- When no thread count is `0`, `main` appends, for the sizes 100, 500, 1000, 2000 in this
order, the sequential record with `numThreads = 1` followed by one record for each of the
seven thread counts in list order: 32 records, each carrying the size being swept. -/
theorem main_appends_all_records [Zero α] {τ : Type} (draws : Int → Nat → Nat → α)
    (elapsed : Matrix α → Bool → Int → τ) (L : Int) (hne : (0 : Int) ∉ threadCounts L) :
    main draws elapsed L =
      .ok (recordsFor draws elapsed (threadCounts L) 100 ++
        (recordsFor draws elapsed (threadCounts L) 500 ++
          (recordsFor draws elapsed (threadCounts L) 1000 ++
            recordsFor draws elapsed (threadCounts L) 2000))) ∧
    ∀ size : Int, (recordsFor draws elapsed (threadCounts L) size).length = 8 ∧
      (recordsFor draws elapsed (threadCounts L) size).map (fun r => r.numThreads)
        = 1 :: threadCounts L ∧
      ∀ r ∈ recordsFor draws elapsed (threadCounts L) size, r.matrixSize = size := by
  constructor
  · unfold main
    rw [sweepSizes_ok draws elapsed _ (fun c hc h0 => hne (h0 ▸ hc))]
    simp [matrixSizes]
  · intro size
    refine ⟨by simp [recordsFor, threadCounts], ?_, ?_⟩
    · unfold recordsFor
      rw [List.map_cons, List.map_map]
      congr 1
    · intro r hr
      unfold recordsFor at hr
      rcases List.mem_cons.mp hr with h | h
      · rw [h]
      · obtain ⟨c, -, rfl⟩ := List.mem_map.mp h
        rfl

/-- C13, as the code behaves: when fewer than four logical cores are reported, the first
thread count is `0` and `main` stops in the first parallel trial of the first matrix size
with the division by zero of `processMatrixParallel`, so it does not append 32 records. -/
theorem main_faults_below_four_cores [Zero α] {τ : Type} (draws : Int → Nat → Nat → α)
    (elapsed : Matrix α → Bool → Int → τ) (L : Int) (h0 : 0 ≤ L) (hL : L < 4) :
    main draws elapsed L = .error Fault.divByZero := by
  have hzero : (0 : Int) ∈ threadCounts L := thread_counts_exact_zero L h0 hL
  unfold main matrixSizes
  exact sweepSizes_fault draws elapsed _ hzero _ _ _

theorem main_faults_below_four_cores_witness :
    (0 : Int) ≤ 2 ∧ (2 : Int) < 4 ∧
    main (fun _ i j => ((i + j : Nat) : ℤ)) (fun _ _ _ => (0 : Nat)) 2
      = .error Fault.divByZero :=
  ⟨by decide, by decide, main_faults_below_four_cores _ _ 2 (by decide) (by decide)⟩

end Lemmas

end MatrixBench
